import Mathlib

/-!
Verification of the mini-git repository (AarambhDevHub/mini-git) against its
natural-language specification.  Each Rust function relevant to the claims is
shallowly embedded as a Lean definition; machine state (filesystem, object
store, index, stash list) is passed explicitly.  Definitions are translated
from the Rust sources under `src/`; parts of the crate that are not present
there (the hasher, the object-store primitives, the commit command) are
modelled from the spec and marked as such in their doc comments.
-/

namespace MiniGit

/-- Edit operation type, from `DiffType` in `src/commands/diff.rs`. -/
inductive DiffType where
  | Equal : DiffType
  | Delete : DiffType
  | Insert : DiffType
deriving DecidableEq

/-- Inner loop of the LCS dynamic-programming table of `compute_diff`
(`src/commands/diff.rs`): given row `i` of the table as the function `prev`
(so `prev j` is `dp[i][j]`), computes row `i+1` entry by entry.
`dpRow old new i prev j` is `dp[i+1][j]`. -/
def dpRow (old new : List String) (i : Nat) (prev : Nat → Nat) : Nat → Nat
  | 0 => 0
  | j + 1 =>
    if old.getD i ("") = new.getD j ("") then prev j + 1
    else max (prev (j + 1)) (dpRow old new i prev j)

/-- The LCS table `dp` of `compute_diff` (`src/commands/diff.rs`):
`dp old new i j` is `dp[i][j]`, the LCS length of the first `i` old lines
and the first `j` new lines.  Row `0` and column `0` are zero; the
recurrence is `dp[i][j] = dp[i-1][j-1] + 1` when the lines match and
`max dp[i-1][j] dp[i][j-1]` otherwise, exactly as the Rust fill loop. -/
def dp (old new : List String) : Nat → Nat → Nat
  | 0 => fun _ => 0
  | i + 1 => dpRow old new i (dp old new i)

/-- Row `0` of the backtracking walk of `compute_diff`: with `i = 0` and
`j > 0` the walk always takes the `Insert` branch, consuming `j`. -/
def btZero : Nat → List DiffType
  | 0 => []
  | j + 1 => DiffType.Insert :: btZero j

/-- One row of the backtracking walk of `compute_diff`
(`src/commands/diff.rs`): `prev` is the walk when the old-line count is `i`
(so `prev j` is the op list produced from position `(i, j)`); `btRow ... j`
is the op list produced from `(i+1, j)`.  Branch order mirrors the Rust
`while` body: lines equal → `Equal`; else if `j == 0` or
`dp[i][j] >= dp[i+1][j-1]` → `Delete`; else `Insert`.  The produced list is
in push order (latest positions first), reversed by `computeDiff`. -/
def btRow (old new : List String) (i : Nat) (prev : Nat → List DiffType) :
    Nat → List DiffType
  | 0 => DiffType.Delete :: prev 0
  | j + 1 =>
    if old.getD i ("") = new.getD j ("") then DiffType.Equal :: prev j
    else if dp old new i (j + 1) ≥ dp old new (i + 1) j then
      DiffType.Delete :: prev (j + 1)
    else DiffType.Insert :: btRow old new i prev j

/-- The backtracking walk of `compute_diff` (`src/commands/diff.rs`) from
position `(i, j)`, producing the op vector in push order. -/
def bt (old new : List String) : Nat → Nat → List DiffType
  | 0 => btZero
  | i + 1 => btRow old new i (bt old new i)

/-- `compute_diff` from `src/commands/diff.rs`: fill the DP table, backtrack
from `(old.len, new.len)`, and reverse the pushed ops. -/
def computeDiff (old new : List String) : List DiffType :=
  (bt old new old.length new.length).reverse

/-- Replay checker, following the words of the claim (not the source): the
edit script replays `old` into `new` when, processing ops left to right,
`Equal` consumes one line from each side and the two lines are equal,
`Delete` consumes the next old line, `Insert` consumes (emits) the next new
line, and at the end both sides are exhausted. -/
def specReplays : List DiffType → List String → List String → Bool
  | [], [], [] => true
  | DiffType.Equal :: ops, x :: xs, y :: ys =>
    if x = y then specReplays ops xs ys else false
  | DiffType.Delete :: ops, _ :: xs, ys => specReplays ops xs ys
  | DiffType.Insert :: ops, xs, _ :: ys => specReplays ops xs ys
  | _, _, _ => false

/-- Commit record.  Modelled from the spec: the struct itself is declared in
the crate's `lib.rs`, which is not under `src/`; the spec's data model gives
`{ hash, tree, parent: Option<Hash>, author, message, timestamp }` with
single parent.  The timestamp (a UTC instant in the code) is modelled as a
`Nat`. -/
structure Commit where
  hash : String
  tree : String
  parent : Option String
  author : String
  message : String
  timestamp : Nat
deriving DecidableEq

/-- Parent walk that collects the full ancestor chain of a commit, as in the
first loop of `find_common_ancestor` (`src/commands/merge.rs`): starting at
`h`, repeatedly load the commit and follow `parent` until a parentless
commit.  The store is the map behind `ObjectStore::load_commit`; `none`
models a failed load or fuel exhaustion (a walk that does not terminate
within `fuel` steps). -/
def chain (store : String → Option Commit) : Nat → String → Option (List String)
  | 0, _ => none
  | fuel + 1, h =>
    match store h with
    | none => none
    | some c =>
      match c.parent with
      | none => some [h]
      | some p =>
        match chain store fuel p with
        | none => none
        | some l => some (h :: l)

/-- `is_ancestor` from `src/commands/merge.rs` (the copy in
`src/commands/pull.rs` is identical): walk parent pointers from `descendant`
(checked inclusively, before any load) until reaching `ancestor` (true) or a
parentless commit (false).  `none` models a failed `load_commit` or fuel
exhaustion. -/
def isAncestor (store : String → Option Commit) : Nat → String → String → Option Bool
  | 0, anc, cur => if cur = anc then some true else none
  | fuel + 1, anc, cur =>
    if cur = anc then some true
    else
      match store cur with
      | none => none
      | some c =>
        match c.parent with
        | none => some false
        | some p => isAncestor store fuel anc p

/-- Second loop of `find_common_ancestor` (`src/commands/merge.rs`): walk
`commit2`'s ancestry and return the first commit contained in the ancestor
set `anc1` of `commit1`; `some none` models falling off a parentless commit
without a hit (the function's `Ok(None)`). -/
def walkFind (store : String → Option Commit) :
    Nat → List String → String → Option (Option String)
  | 0, anc1, cur => if cur ∈ anc1 then some (some cur) else none
  | fuel + 1, anc1, cur =>
    if cur ∈ anc1 then some (some cur)
    else
      match store cur with
      | none => none
      | some c =>
        match c.parent with
        | none => some none
        | some p => walkFind store fuel anc1 p

/-- `find_common_ancestor` from `src/commands/merge.rs`: collect the
ancestors of `commit1`, then walk `commit2`'s ancestry returning the first
element found in that set. -/
def findCommonAncestor (store : String → Option Commit) (n m : Nat)
    (commit1 commit2 : String) : Option (Option String) :=
  match chain store n commit1 with
  | none => none
  | some anc1 => walkFind store m anc1 commit2

/-- `a` is an ancestor of `d` (inclusive): `a` occurs on the terminating
parent chain of `d`. -/
def IsAncestorOf (store : String → Option Commit) (a d : String) : Prop :=
  ∃ n l, chain store n d = some l ∧ a ∈ l

/-- Concrete commit fixture: a root commit. -/
def wCommitR : Commit :=
  { hash := "r", tree := "", parent := none, author := "", message := "", timestamp := 0 }

/-- Concrete commit fixture: a child of the root on one branch. -/
def wCommitA : Commit :=
  { hash := "a", tree := "", parent := some ("r"), author := "", message := "", timestamp := 0 }

/-- Concrete commit fixture: a child of the root on another branch. -/
def wCommitB : Commit :=
  { hash := "b", tree := "", parent := some ("r"), author := "", message := "", timestamp := 0 }

/-- Concrete commit store holding the three fixture commits. -/
def wStore : String → Option Commit := fun h =>
  if h = "a" then some wCommitA
  else if h = "b" then some wCommitB
  else if h = "r" then some wCommitR
  else none

/-- Tree entry.  Modelled from the spec: the struct is declared in the
crate's `lib.rs`, which is not under `src/`; its fields and their order are
taken from the construction sites in `src/commands/stash.rs`
(`TreeEntry { mode, hash, name, is_file }`). -/
structure TreeEntry where
  mode : String
  hash : String
  name : String
  is_file : Bool
deriving DecidableEq

/-- JSON escaping of one character (quote and backslash). -/
def jsonEscapeChar (c : Char) : String :=
  if c = '"' then "\\\""
  else if c = '\\' then "\\\\"
  else String.singleton c

/-- JSON escaping of a string body. -/
def jsonEscape (s : String) : String :=
  String.join (s.toList.map jsonEscapeChar)

/-- JSON rendering of a string. -/
def jsonStr (s : String) : String := "\"" ++ jsonEscape s ++ "\""

/-- JSON rendering of a boolean. -/
def serializeBool : Bool → String
  | true => "true"
  | false => "false"

/-- Modelled from the spec: the JSON rendering of one `TreeEntry` produced
by the external `serde_json` serializer invoked in `src/commands/merge.rs`
and `src/commands/stash.rs` (struct fields in declaration order). -/
def serializeTreeEntry (e : TreeEntry) : String :=
  "\x7b" ++ jsonStr ("mode") ++ ":" ++ jsonStr e.mode ++ "," ++
    jsonStr ("hash") ++ ":" ++ jsonStr e.hash ++ "," ++
    jsonStr ("name") ++ ":" ++ jsonStr e.name ++ "," ++
    jsonStr ("is_file") ++ ":" ++ serializeBool e.is_file ++ "\x7d"

/-- Modelled from the spec: `serde_json::to_vec` applied to the
`HashMap<String, TreeEntry>` of tree entries (`src/commands/merge.rs` line
218, `src/commands/stash.rs` lines 280 and 323) renders a JSON object whose
members appear in the map's iteration order; the argument list is that
iteration order.  Rust's `HashMap` iteration order is randomized per
process, so the order is an artifact of the map state, not of its logical
contents. -/
def serializeTreeEntries (entries : List (String × TreeEntry)) : String :=
  "\x7b" ++
    String.intercalate (",")
      (entries.map fun kv => jsonStr kv.1 ++ ":" ++ serializeTreeEntry kv.2) ++
    "\x7d"

/-- Bytes hashed for a merge commit, from `src/commands/merge.rs` lines
53–57: `format!("{}{}{}{}{}", merged_tree.hash, current_commit,
merge_commit, author, message)` — note the merged-in tip `merge_commit`
sits between the first parent and the author. -/
def mergeCommitContent
    (mergedTreeHash currentCommit mergeCommit author message : String) : String :=
  mergedTreeHash ++ currentCommit ++ mergeCommit ++ author ++ message

/-- The merge commit object built in `src/commands/merge.rs` lines 57–66:
hash of the merge content, first parent recorded in `parent`, merged tree,
and the current timestamp.  The hasher (`ObjectStore::hash_content`, not
under `src/`; per the spec a pure deterministic content hash) is passed as
`hashContent`. -/
def mkMergeCommit (hashContent : String → String)
    (mergedTreeHash currentCommit mergeCommit author message : String)
    (now : Nat) : Commit :=
  { hash := hashContent
      (mergeCommitContent mergedTreeHash currentCommit mergeCommit author message),
    parent := some currentCommit,
    tree := mergedTreeHash,
    author := author,
    message := message,
    timestamp := now }

/-- The fixed author of stash commits (`src/commands/stash.rs`). -/
def stashAuthor : String := "Mini Git Stash <stash@minigit.local>"

/-- Bytes hashed for a stash commit, from `src/commands/stash.rs` lines
80–87: `format!("{}{}{}{}", working_tree.hash,
parent_commit.unwrap_or_default(), author, message)`. -/
def stashCommitContent (workingTreeHash : String) (parentCommit : Option String)
    (message : String) : String :=
  workingTreeHash ++ parentCommit.getD ("") ++ stashAuthor ++ message

/-- The stash commit object built in `src/commands/stash.rs` lines 89–96. -/
def mkStashCommit (hashContent : String → String) (workingTreeHash : String)
    (parentCommit : Option String) (message : String) (now : Nat) : Commit :=
  { hash := hashContent (stashCommitContent workingTreeHash parentCommit message),
    parent := parentCommit,
    tree := workingTreeHash,
    author := stashAuthor,
    message := message,
    timestamp := now }

/-- Modelled from the spec: ordinary commit creation (`commands/commit.rs`
is not under `src/`); per the spec, "Commit creation hashes
`tree || parent || author || message`". -/
def ordinaryCommitContent (treeHash : String) (parent : Option String)
    (author message : String) : String :=
  treeHash ++ parent.getD ("") ++ author ++ message

/-- Modelled from the spec: the ordinary commit object, hash over
`ordinaryCommitContent`, timestamp excluded from the hashed bytes. -/
def mkOrdinaryCommit (hashContent : String → String) (treeHash : String)
    (parent : Option String) (author message : String) (now : Nat) : Commit :=
  { hash := hashContent (ordinaryCommitContent treeHash parent author message),
    parent := parent,
    tree := treeHash,
    author := author,
    message := message,
    timestamp := now }

/-- The hashed-byte formula asserted by the claim (following the claim's
words, for comparison with the code's formulas): exactly
`tree || parent || author || message`, parent empty when absent. -/
def claimedCommitContent (treeHash : String) (parent : Option String)
    (author message : String) : String :=
  treeHash ++ parent.getD ("") ++ author ++ message

/-- The conflict notice printed by `perform_three_way_merge`
(`src/commands/merge.rs` line 204). -/
def conflictMessage (path : String) : String :=
  "CONFLICT: Merge conflict in " ++ path

/-- Per-path classification of `perform_three_way_merge`
(`src/commands/merge.rs` lines 171–214).  Returns the entry stored for the
path (`none` = not inserted, i.e. deleted) and whether the conflict notice
is printed.  The guards appear in the order of the Rust match arms; the
final catch-all is `our_entry.or(their_entry)`. -/
def mergePath (b o t : Option TreeEntry) : Option TreeEntry × Bool :=
  match b, o, t with
  | some base, some our, some their =>
    if our.hash = base.hash ∧ their.hash = base.hash then (some base, false)
    else if their.hash = base.hash then (some our, false)
    else if our.hash = base.hash then (some their, false)
    else if our.hash ≠ their.hash then (some our, true)
    else (some our, false)
  | none, some our, none => (some our, false)
  | none, none, some their => (some their, false)
  | some base, none, some their =>
    if their.hash = base.hash then (none, false) else (some their, false)
  | some base, some our, none =>
    if our.hash = base.hash then (none, false) else (some our, false)
  | none, some our, some _ => (some our, false)
  | none, none, none => (none, false)
  | some _, none, none => (none, false)

/-- The merge loop of `perform_three_way_merge` (`src/commands/merge.rs`
lines 151–215): for each path of the union of the three trees' key sets
(`paths`, in the `HashSet` iteration order), classify with `mergePath` and
insert the chosen entry into the merged map, collecting the printed
conflict notices.  The conflict arm inserts our entry and continues — it
never returns an error. -/
def performThreeWayMerge (paths : List String)
    (base ours theirs : String → Option TreeEntry) :
    List (String × TreeEntry) × List String :=
  match paths with
  | [] => ([], [])
  | p :: rest =>
    let r := performThreeWayMerge rest base ours theirs
    match mergePath (base p) (ours p) (theirs p) with
    | (some e, true) => ((p, e) :: r.1, conflictMessage p :: r.2)
    | (some e, false) => ((p, e) :: r.1, r.2)
    | (none, _) => r

/-- Concrete tree entries for the serialization and merge fixtures. -/
def wEntry1 : TreeEntry :=
  { mode := "100644", hash := "h1", name := "a", is_file := true }

/-- Second concrete tree entry. -/
def wEntry2 : TreeEntry :=
  { mode := "100644", hash := "h2", name := "b", is_file := true }

/-- Concrete base-side entry for the conflict fixture. -/
def wConflictBase : TreeEntry :=
  { mode := "100644", hash := "hb", name := "x", is_file := true }

/-- Concrete our-side entry for the conflict fixture. -/
def wConflictOurs : TreeEntry :=
  { mode := "100644", hash := "ho", name := "x", is_file := true }

/-- Concrete their-side entry for the conflict fixture. -/
def wConflictTheirs : TreeEntry :=
  { mode := "100644", hash := "ht", name := "x", is_file := true }

/-- Concrete base tree for the conflict fixture. -/
def wBaseTree : String → Option TreeEntry := fun q =>
  if q = "x" then some wConflictBase else none

/-- Concrete our tree for the conflict fixture. -/
def wOurTree : String → Option TreeEntry := fun q =>
  if q = "x" then some wConflictOurs else none

/-- Concrete their tree for the conflict fixture. -/
def wTheirTree : String → Option TreeEntry := fun q =>
  if q = "x" then some wConflictTheirs else none

/-- Association-list lookup, used to model filesystem and store maps. -/
def assocLookup {α β : Type} [DecidableEq α] : α → List (α × β) → Option β
  | _, [] => none
  | k, (k', v) :: rest => if k = k' then some v else assocLookup k rest

/-- Inner loop of `copy_missing_objects` (`src/commands/push.rs` lines
253–262, identical in `src/commands/pull.rs`): for each file of a source
object subdirectory, copy it to the destination only when the destination
path does not exist, counting the copies.  The destination object store is
a map from `(subdirectory, filename)` to file bytes. -/
def copyDirObjects (dirName : String) (files : List (String × String))
    (dst : List ((String × String) × String)) (count : Nat) :
    List ((String × String) × String) × Nat :=
  match files with
  | [] => (dst, count)
  | (f, bytes) :: rest =>
    match assocLookup (dirName, f) dst with
    | some _ => copyDirObjects dirName rest dst count
    | none => copyDirObjects dirName rest (dst ++ [((dirName, f), bytes)]) (count + 1)

/-- Outer loop of `copy_missing_objects` (`src/commands/push.rs` lines
244–264): iterate the source's object subdirectories (non-directory entries
are skipped by the code, so the source model lists only subdirectories),
copying each missing file. -/
def copyMissingObjectsAux : List (String × List (String × String)) →
    List ((String × String) × String) → Nat →
    List ((String × String) × String) × Nat
  | [], dst, c => (dst, c)
  | (d, files) :: rest, dst, c =>
    let r := copyDirObjects d files dst c
    copyMissingObjectsAux rest r.1 r.2

/-- `copy_missing_objects` from `src/commands/push.rs` (and the identical
copy in `src/commands/pull.rs`): copy every source object file absent from
the destination, returning the new destination contents and the number of
files copied. -/
def copyMissingObjects (src : List (String × List (String × String)))
    (dst : List ((String × String) × String)) :
    List ((String × String) × String) × Nat :=
  copyMissingObjectsAux src dst 0

/-- Index entry.  Modelled from the spec: the struct is declared in the
crate's `lib.rs`; fields `{ path, hash, mode }` per the spec's data model
and the construction sites in `src/commands/stash.rs` and
`src/commands/push.rs`. -/
structure IndexEntry where
  hash : String
  mode : String
  path : String
deriving DecidableEq

/-- Blob object.  Modelled from the spec: immutable byte string (bytes
modelled as a `String`). -/
structure Blob where
  content : String
deriving DecidableEq

/-- Tree object: identity hash plus the entry map, the latter as an
association list in the `HashMap` iteration order.  Modelled from the spec
for the struct declaration; field use matches `src/commands/merge.rs` and
`src/commands/stash.rs`. -/
structure Tree where
  hash : String
  entries : List (String × TreeEntry)
deriving DecidableEq

/-- Stash entry, from the `Stash` struct in `src/commands/stash.rs`
(timestamp modelled as `Nat`). -/
structure Stash where
  message : String
  commit_hash : String
  parent_commit : Option String
  index_tree : String
  working_tree : String
  timestamp : Nat
deriving DecidableEq

/-- Repository state touched by the stash commands: the working tree (paths
to bytes, metadata directory excluded), the index, the ordered stash list
(most recent first, the parsed contents of `meta_root/stash`), the object
store maps, the branch refs and the current branch. -/
structure RepoState where
  workDir : List (String × String)
  indexEntries : List (String × IndexEntry)
  stashes : List Stash
  blobs : List (String × Blob)
  trees : List (String × Tree)
  commits : List (String × Commit)
  branches : List (String × String)
  currentBranch : String
deriving DecidableEq

/-- Overwriting insert into an association list, modelling `fs::write` of a
file and `HashMap::insert`. -/
def setAssoc {α β : Type} [DecidableEq α] : α → β → List (α × β) → List (α × β)
  | k, v, [] => [(k, v)]
  | k, v, (k', v') :: rest =>
    if k = k' then (k, v) :: rest else (k', v') :: setAssoc k v rest

/-- `restore_tree_to_working_dir` (`src/commands/stash.rs` lines 353–372):
for each file entry, load its blob and write the bytes into the working
tree; a failed blob load aborts with the writes made so far kept. -/
def restoreEntries (blobs : List (String × Blob)) :
    List (String × TreeEntry) → List (String × String) →
    List (String × String) × Option String
  | [], wd => (wd, none)
  | (p, te) :: rest, wd =>
    if te.is_file then
      match assocLookup te.hash blobs with
      | none => (wd, some ("Blob not found"))
      | some b => restoreEntries blobs rest (setAssoc p b.content wd)
    else restoreEntries blobs rest wd

/-- `create_index_from_tree` (`src/commands/stash.rs` lines 334–351). -/
def createIndexFromTree (t : Tree) : List (String × IndexEntry) :=
  (t.entries.filter fun kv => kv.2.is_file).map fun kv =>
    (kv.1, { hash := kv.2.hash, mode := kv.2.mode, path := kv.1 })

/-- `stash_pop` (`src/commands/stash.rs` lines 123–152): bound-check the
requested index (default 0) against the stored entries, then restore the
working tree from the stash's working tree, restore the index from its
index tree, and remove the entry.  The bound check precedes every write;
its error string is the source's `"Invalid stash index"`. -/
def stashPop (st : RepoState) (idx : Option Nat) : RepoState × Option String :=
  let entries := st.stashes
  let i := idx.getD 0
  if h : entries.length ≤ i then (st, some ("Invalid stash index"))
  else
    let e := entries.get ⟨i, by omega⟩
    match assocLookup e.working_tree st.trees with
    | none => (st, some ("Tree not found"))
    | some wt =>
      let r := restoreEntries st.blobs wt.entries st.workDir
      match r.2 with
      | some msg => ({ st with workDir := r.1 }, some msg)
      | none =>
        match assocLookup e.index_tree st.trees with
        | none => ({ st with workDir := r.1 }, some ("Tree not found"))
        | some it =>
          ({ st with
              workDir := r.1
              indexEntries := createIndexFromTree it
              stashes := entries.eraseIdx i }, none)

/-- `stash_show` (`src/commands/stash.rs` lines 169–196): bound-check, then
only read (load the stash's working tree and print); no state is written. -/
def stashShow (st : RepoState) (idx : Option Nat) : RepoState × Option String :=
  let entries := st.stashes
  let i := idx.getD 0
  if h : entries.length ≤ i then (st, some ("Invalid stash index"))
  else
    match assocLookup (entries.get ⟨i, by omega⟩).working_tree st.trees with
    | none => (st, some ("Tree not found"))
    | some _ => (st, none)

/-- `stash_drop` (`src/commands/stash.rs` lines 198–214): bound-check, then
remove the entry at the index and save the list. -/
def stashDrop (st : RepoState) (idx : Option Nat) : RepoState × Option String :=
  let entries := st.stashes
  let i := idx.getD 0
  if entries.length ≤ i then (st, some ("Invalid stash index"))
  else ({ st with stashes := entries.eraseIdx i }, none)

/-- `has_unstaged_changes` (`src/commands/stash.rs` lines 226–245): true
iff some indexed file is missing from the working tree or hashes
differently; only indexed entries are inspected, so untracked files never
count. -/
def hasUnstagedChanges (hashContent : String → String) (st : RepoState) : Bool :=
  st.indexEntries.any fun kv =>
    match assocLookup kv.1 st.workDir with
    | some content => hashContent content != kv.2.hash
    | none => true

/-- First line of a commit message, as `message.lines().next()` in
`get_last_commit_subject` (`src/commands/stash.rs`). -/
def firstLine (s : String) : String := (s.splitOn ("\n")).headD ("")

/-- Default stash message `"WIP on <branch>: <subject>"` built in
`stash_push` (`src/commands/stash.rs` lines 64–70) from the current branch
tip's commit subject. -/
def defaultStashMessage (st : RepoState) : String :=
  let subject :=
    match assocLookup st.currentBranch st.branches with
    | some ch =>
      match assocLookup ch st.commits with
      | some c => firstLine c.message
      | none => "unknown"
    | none => "no commits yet"
  "WIP on " ++ st.currentBranch ++ ": " ++ subject

/-- `create_tree_from_index` (`src/commands/stash.rs` lines 261–289): build
tree entries from the index, serialize, hash and store the tree.  The
store-and-hash steps (`ObjectStore`, not under `src/`) are modelled from
the spec as the content hash of the canonical serialization plus a map
insert. -/
def createTreeFromIndex (hashContent : String → String) (st : RepoState) :
    Tree × RepoState :=
  let entries := st.indexEntries.map fun kv =>
    (kv.1, ({ mode := kv.2.mode, hash := kv.2.hash, name := kv.1, is_file := true } : TreeEntry))
  let h := hashContent (serializeTreeEntries entries)
  let t : Tree := { hash := h, entries := entries }
  (t, { st with trees := setAssoc h t st.trees })

/-- The file walk of `create_tree_from_working_dir`
(`src/commands/stash.rs` lines 291–321): store each working file as a blob
and build its tree entry (mode `"100644"`), in walk order. -/
def stageWorkingFiles (hashContent : String → String) :
    List (String × String) → List (String × Blob) →
    List (String × TreeEntry) × List (String × Blob)
  | [], blobs => ([], blobs)
  | (p, content) :: rest, blobs =>
    let h := hashContent content
    let blobs' := setAssoc h ({ content := content } : Blob) blobs
    let r := stageWorkingFiles hashContent rest blobs'
    ((p, ({ mode := "100644", hash := h, name := p, is_file := true } : TreeEntry)) :: r.1, r.2)

/-- `create_tree_from_working_dir` (`src/commands/stash.rs` lines 291–331):
stage every working file, then serialize, hash and store the tree. -/
def createTreeFromWorkingDir (hashContent : String → String) (st : RepoState) :
    Tree × RepoState :=
  let r := stageWorkingFiles hashContent st.workDir st.blobs
  let h := hashContent (serializeTreeEntries r.1)
  let t : Tree := { hash := h, entries := r.1 }
  (t, { st with blobs := r.2, trees := setAssoc h t st.trees })

/-- `stash_push` (`src/commands/stash.rs` lines 53–121): when the index is
empty and no indexed file is modified or missing, print and return `Ok`
without touching any state; otherwise snapshot index and working trees,
create and store the stash commit, prepend the stash entry, clear the
working directory (metadata kept) and save an empty index. -/
def stashPush (hashContent : String → String) (st : RepoState)
    (message : Option String) : RepoState × Option String :=
  if st.indexEntries = [] ∧ hasUnstagedChanges hashContent st = false then
    (st, none)
  else
    let msg := message.getD (defaultStashMessage st)
    let r1 := createTreeFromIndex hashContent st
    let r2 := createTreeFromWorkingDir hashContent r1.2
    let parentCommit := assocLookup st.currentBranch st.branches
    let cHash := hashContent (stashCommitContent r2.1.hash parentCommit msg)
    let c : Commit :=
      { hash := cHash
        parent := parentCommit
        tree := r2.1.hash
        author := stashAuthor
        message := msg
        timestamp := 0 }
    let st3 := { r2.2 with commits := setAssoc cHash c r2.2.commits }
    let entry : Stash :=
      { message := msg
        commit_hash := cHash
        parent_commit := parentCommit
        index_tree := r1.1.hash
        working_tree := r2.1.hash
        timestamp := 0 }
    ({ st3 with
        stashes := entry :: st3.stashes
        workDir := []
        indexEntries := [] }, none)

/-- Concrete repository state with one untracked working file, an empty
index and an empty stash list. -/
def wRepoState : RepoState :=
  { workDir := [("u.txt", "data")]
    indexEntries := []
    stashes := []
    blobs := []
    trees := []
    commits := []
    branches := []
    currentBranch := "main" }

theorem dp_zero_left (old new : List String) (j : Nat) : dp old new 0 j = 0 := rfl

theorem dp_zero_right (old new : List String) (i : Nat) : dp old new i 0 = 0 := by
  cases i <;> rfl

theorem dp_succ_succ (old new : List String) (i j : Nat) :
    dp old new (i + 1) (j + 1) =
      if old.getD i ("") = new.getD j ("") then dp old new i j + 1
      else max (dp old new i (j + 1)) (dp old new (i + 1) j) := rfl

theorem bt_zero_zero (old new : List String) : bt old new 0 0 = [] := rfl

theorem bt_zero_succ (old new : List String) (j : Nat) :
    bt old new 0 (j + 1) = DiffType.Insert :: bt old new 0 j := rfl

theorem bt_succ_zero (old new : List String) (i : Nat) :
    bt old new (i + 1) 0 = DiffType.Delete :: bt old new i 0 := rfl

theorem bt_succ_succ (old new : List String) (i j : Nat) :
    bt old new (i + 1) (j + 1) =
      if old.getD i ("") = new.getD j ("") then DiffType.Equal :: bt old new i j
      else if dp old new i (j + 1) ≥ dp old new (i + 1) j then
        DiffType.Delete :: bt old new i (j + 1)
      else DiffType.Insert :: bt old new (i + 1) j := rfl

theorem specReplays_nil : specReplays [] [] [] = true := rfl

/-- Sequential composition of replay checks. -/
theorem specReplays_append :
    ∀ (ops₁ : List DiffType) (xs₁ ys₁ : List String)
      (ops₂ : List DiffType) (xs₂ ys₂ : List String),
      specReplays ops₁ xs₁ ys₁ = true → specReplays ops₂ xs₂ ys₂ = true →
      specReplays (ops₁ ++ ops₂) (xs₁ ++ xs₂) (ys₁ ++ ys₂) = true := by
  intro ops₁
  induction ops₁ with
  | nil =>
    intro xs₁ ys₁ ops₂ xs₂ ys₂ h₁ h₂
    cases xs₁ <;> cases ys₁ <;> simp [specReplays] at h₁
    simpa using h₂
  | cons op ops ih =>
    intro xs₁ ys₁ ops₂ xs₂ ys₂ h₁ h₂
    cases op with
    | Equal =>
      cases xs₁ with
      | nil => simp [specReplays] at h₁
      | cons x xs =>
        cases ys₁ with
        | nil => simp [specReplays] at h₁
        | cons y ys =>
          simp only [specReplays] at h₁
          by_cases hxy : x = y
          · simp only [List.cons_append, specReplays, if_pos hxy]
            exact ih xs ys ops₂ xs₂ ys₂ (by simpa [hxy] using h₁) h₂
          · simp [hxy] at h₁
    | Delete =>
      cases xs₁ with
      | nil => simp [specReplays] at h₁
      | cons x xs =>
        simp only [specReplays] at h₁
        simp only [List.cons_append, specReplays]
        exact ih xs ys₁ ops₂ xs₂ ys₂ h₁ h₂
    | Insert =>
      cases ys₁ with
      | nil => cases xs₁ <;> simp [specReplays] at h₁
      | cons y ys =>
        simp only [specReplays] at h₁
        simp only [List.cons_append, specReplays]
        exact ih xs₁ ys ops₂ xs₂ ys₂ h₁ h₂

/-- A `take` of one more element, expressed with `getD`, for index `< length`. -/
theorem take_succ_getD (l : List String) (i : Nat) (hi : i < l.length) :
    l.take (i + 1) = l.take i ++ [l.getD i ("")] := by
  have h1 : l.take (i + 1) = l.take i ++ l[i]?.toList := List.take_succ
  have h2 : l[i]? = some l[i] := List.getElem?_eq_getElem hi
  have h3 : l.getD i ("") = l[i] := by
    simp [List.getD, h2]
  rw [h1, h2, h3]
  rfl

/-- Core invariant of the backtracking walk: the reversed op list from
position `(i, j)` replays the first `i` old lines into the first `j` new
lines. -/
theorem bt_replays (old new : List String) :
    ∀ (i j : Nat), i ≤ old.length → j ≤ new.length →
      specReplays ((bt old new i j).reverse) (old.take i) (new.take j) = true := by
  intro i
  induction i with
  | zero =>
    intro j
    induction j with
    | zero => intro _ _; simp [bt, btZero, specReplays]
    | succ j ihj =>
      intro _ hj
      have hjlt : j < new.length := Nat.lt_of_succ_le hj
      rw [bt_zero_succ, List.reverse_cons, take_succ_getD new j hjlt]
      have hbase := ihj (Nat.zero_le _) (Nat.le_of_lt hjlt)
      have hone : specReplays [DiffType.Insert] [] [new.getD j ("")] = true := rfl
      have := specReplays_append ((bt old new 0 j).reverse) (old.take 0) (new.take j)
        [DiffType.Insert] [] [new.getD j ("")] hbase hone
      simpa using this
  | succ i ihi =>
    intro j
    induction j with
    | zero =>
      intro hi _
      have hilt : i < old.length := Nat.lt_of_succ_le hi
      rw [bt_succ_zero, List.reverse_cons, take_succ_getD old i hilt]
      have hbase := ihi 0 (Nat.le_of_lt hilt) (Nat.zero_le _)
      have hone : specReplays [DiffType.Delete] [old.getD i ("")] [] = true := rfl
      have := specReplays_append ((bt old new i 0).reverse) (old.take i) (new.take 0)
        [DiffType.Delete] [old.getD i ("")] [] hbase hone
      simpa using this
    | succ j ihj =>
      intro hi hj
      have hilt : i < old.length := Nat.lt_of_succ_le hi
      have hjlt : j < new.length := Nat.lt_of_succ_le hj
      rw [bt_succ_succ]
      by_cases heq : old.getD i ("") = new.getD j ("")
      · rw [if_pos heq, List.reverse_cons, take_succ_getD old i hilt,
          take_succ_getD new j hjlt]
        have hbase := ihi j (Nat.le_of_lt hilt) (Nat.le_of_lt hjlt)
        have hone : specReplays [DiffType.Equal] [old.getD i ("")] [new.getD j ("")] = true := by
          simp only [specReplays]
          rw [if_pos heq]
        exact specReplays_append ((bt old new i j).reverse) (old.take i) (new.take j)
          [DiffType.Equal] [old.getD i ("")] [new.getD j ("")] hbase hone
      · rw [if_neg heq]
        by_cases hge : dp old new i (j + 1) ≥ dp old new (i + 1) j
        · rw [if_pos hge, List.reverse_cons, take_succ_getD old i hilt]
          have hbase := ihi (j + 1) (Nat.le_of_lt hilt) hj
          have hone : specReplays [DiffType.Delete] [old.getD i ("")] [] = true := rfl
          have := specReplays_append ((bt old new i (j + 1)).reverse) (old.take i)
            (new.take (j + 1)) [DiffType.Delete] [old.getD i ("")] [] hbase hone
          simpa using this
        · rw [if_neg hge, List.reverse_cons, take_succ_getD new j hjlt]
          have hbase := ihj hi (Nat.le_of_lt hjlt)
          have hone : specReplays [DiffType.Insert] [] [new.getD j ("")] = true := rfl
          have := specReplays_append ((bt old new (i + 1) j).reverse)
            (old.take (i + 1)) (new.take j)
            [DiffType.Insert] [] [new.getD j ("")] hbase hone
          simpa using this

/-- Claim C6: for every pair of line sequences, the edit sequence returned by
`compute_diff(A, B)` replays `A` into `B`: `Equal` copies the next line of
`A` (equal to the next line of `B`), `Delete` drops the next line of `A`,
`Insert` emits the next line of `B`, and the ops consume exactly all of `A`
and produce exactly `B`. -/
theorem computeDiff_replays (old new : List String) :
    specReplays (computeDiff old new) old new = true := by
  have h := bt_replays old new old.length new.length (Nat.le_refl _) (Nat.le_refl _)
  simpa [computeDiff] using h

/-- Claim C7: at every backtracking position of `compute_diff` where the
current lines differ and `dp[i-1][j]` equals `dp[i][j-1]`, the walk emits
`Delete` (tie-break on the old-lines side), not `Insert`. -/
theorem computeDiff_tie_break_delete (old new : List String) (i j : Nat)
    (hi : 0 < i) (hj : 0 < j)
    (hne : old.getD (i - 1) ("") ≠ new.getD (j - 1) (""))
    (htie : dp old new (i - 1) j = dp old new i (j - 1)) :
    bt old new i j = DiffType.Delete :: bt old new (i - 1) j := by
  obtain ⟨i', rfl⟩ : ∃ i', i = i' + 1 := ⟨i - 1, (Nat.succ_pred_eq_of_pos hi).symm⟩
  obtain ⟨j', rfl⟩ : ∃ j', j = j' + 1 := ⟨j - 1, (Nat.succ_pred_eq_of_pos hj).symm⟩
  simp only [Nat.add_sub_cancel] at hne htie
  rw [bt_succ_succ, if_neg hne, if_pos (le_of_eq htie.symm)]
  simp

/-- Witness for C7 at a concrete tied position: old lines `["a"]`, new lines
`["b"]`, position `(1, 1)`. -/
theorem computeDiff_tie_break_delete_witness :
    (0 < 1 ∧ List.getD ["a"] 0 ("") ≠ List.getD ["b"] 0 ("") ∧
      dp ["a"] ["b"] 0 1 = dp ["a"] ["b"] 1 0) ∧
    bt ["a"] ["b"] 1 1 = DiffType.Delete :: bt ["a"] ["b"] 0 1 :=
  ⟨⟨Nat.zero_lt_one, by decide, by decide⟩,
    computeDiff_tie_break_delete ["a"] ["b"] 1 1 Nat.zero_lt_one Nat.zero_lt_one
      (by decide) (by decide)⟩

theorem chain_head (store : String → Option Commit) (n : Nat) (h : String)
    (l : List String) (hc : chain store n h = some l) : ∃ t, l = h :: t := by
  cases n with
  | zero => simp [chain] at hc
  | succ n =>
    simp only [chain] at hc
    cases hs : store h with
    | none => simp [hs] at hc
    | some c =>
      simp only [hs] at hc
      cases hp : c.parent with
      | none =>
        simp only [hp, Option.some.injEq] at hc
        exact ⟨[], hc.symm⟩
      | some p =>
        simp only [hp] at hc
        cases hcp : chain store n p with
        | none => simp [hcp] at hc
        | some l' =>
          simp only [hcp, Option.some.injEq] at hc
          exact ⟨l', hc.symm⟩

/-- The chain walk is deterministic: any two successful walks from the same
commit agree, regardless of fuel. -/
theorem chain_det (store : String → Option Commit) :
    ∀ (n n' : Nat) (h : String) (l l' : List String),
      chain store n h = some l → chain store n' h = some l' → l = l' := by
  intro n
  induction n with
  | zero => intro n' h l l' h1 _; simp [chain] at h1
  | succ n ih =>
    intro n' h l l' h1 h2
    cases n' with
    | zero => simp [chain] at h2
    | succ n' =>
      simp only [chain] at h1 h2
      cases hs : store h with
      | none => simp [hs] at h1
      | some c =>
        simp only [hs] at h1 h2
        cases hp : c.parent with
        | none =>
          simp only [hp, Option.some.injEq] at h1 h2
          rw [← h1, ← h2]
        | some p =>
          simp only [hp] at h1 h2
          cases hcp : chain store n p with
          | none => simp [hcp] at h1
          | some l1 =>
            cases hcp' : chain store n' p with
            | none => simp [hcp'] at h2
            | some l2 =>
              simp only [hcp, Option.some.injEq] at h1
              simp only [hcp', Option.some.injEq] at h2
              rw [← h1, ← h2, ih n' p l1 l2 hcp hcp']

/-- Every element of a chain roots its own chain: if the walk from `y`
yields `l₁ ++ g :: l₂`, then the walk from `g` yields `g :: l₂`. -/
theorem chain_append (store : String → Option Commit) :
    ∀ (n : Nat) (y : String) (cy : List String), chain store n y = some cy →
      ∀ (l₁ : List String) (g : String) (l₂ : List String), cy = l₁ ++ g :: l₂ →
        ∃ k, chain store k g = some (g :: l₂) := by
  intro n
  induction n with
  | zero => intro y cy h; simp [chain] at h
  | succ n ih =>
    intro y cy h l₁ g l₂ hcy
    simp only [chain] at h
    cases hs : store y with
    | none => simp [hs] at h
    | some c =>
      simp only [hs] at h
      cases hp : c.parent with
      | none =>
        simp only [hp, Option.some.injEq] at h
        rw [← h] at hcy
        cases l₁ with
        | nil =>
          simp only [List.nil_append, List.cons.injEq] at hcy
          obtain ⟨hg, hl₂⟩ := hcy
          refine ⟨n + 1, ?_⟩
          rw [← hg, ← hl₂]
          simp [chain, hs, hp]
        | cons a l₁' =>
          have hlen := congrArg List.length hcy
          simp at hlen
      | some p =>
        cases hcp : chain store n p with
        | none => simp [hp, hcp] at h
        | some l' =>
          simp only [hp, hcp, Option.some.injEq] at h
          rw [← h] at hcy
          cases l₁ with
          | nil =>
            simp only [List.nil_append, List.cons.injEq] at hcy
            obtain ⟨hg, hl₂⟩ := hcy
            refine ⟨n + 1, ?_⟩
            rw [← hg, ← hl₂]
            simp [chain, hs, hp, hcp]
          | cons a l₁' =>
            simp only [List.cons_append, List.cons.injEq] at hcy
            exact ih p l' hcp l₁' g l₂ hcy.2

/-- A terminating chain has no duplicates. -/
theorem chain_nodup (store : String → Option Commit) :
    ∀ (n : Nat) (y : String) (cy : List String),
      chain store n y = some cy → cy.Nodup := by
  intro n
  induction n with
  | zero => intro y cy h; simp [chain] at h
  | succ n ih =>
    intro y cy h
    have hfull := h
    simp only [chain] at h
    cases hs : store y with
    | none => simp [hs] at h
    | some c =>
      simp only [hs] at h
      cases hp : c.parent with
      | none =>
        simp only [hp, Option.some.injEq] at h
        rw [← h]; simp
      | some p =>
        cases hcp : chain store n p with
        | none => simp [hp, hcp] at h
        | some l' =>
          simp only [hp, hcp, Option.some.injEq] at h
          rw [← h]
          rw [List.nodup_cons]
          refine ⟨?_, ih p l' hcp⟩
          intro hyl
          obtain ⟨s, t, hst⟩ := List.append_of_mem hyl
          have hdecomp : y :: l' = (y :: s) ++ y :: t := by
            rw [hst]; rfl
          rw [← h] at hfull
          obtain ⟨k, hk⟩ := chain_append store (n + 1) y (y :: l') hfull (y :: s) y t hdecomp
          have hdet := chain_det store (n + 1) k y (y :: l') (y :: t) hfull hk
          have hlen : l'.length = t.length := by
            have := congrArg List.length hdet
            simpa using this
          rw [hst] at hlen
          simp at hlen
          omega

/-- The `is_ancestor` walk decides membership in the terminating parent
chain. -/
theorem chain_isAncestor (store : String → Option Commit) :
    ∀ (n : Nat) (d : String) (l : List String), chain store n d = some l →
      ∀ a, isAncestor store n a d = some (decide (a ∈ l)) := by
  intro n
  induction n with
  | zero => intro d l h; simp [chain] at h
  | succ n ih =>
    intro d l h a
    simp only [chain] at h
    cases hs : store d with
    | none => simp [hs] at h
    | some c =>
      simp only [hs] at h
      cases hp : c.parent with
      | none =>
        simp only [hp, Option.some.injEq] at h
        rw [← h]
        by_cases hda : d = a
        · subst hda
          simp [isAncestor]
        · simp only [isAncestor, if_neg hda, hs, hp]
          have hdec : decide (a ∈ [d]) = false := by
            simp [Ne.symm hda]
          rw [hdec]
      | some p =>
        cases hcp : chain store n p with
        | none => simp [hp, hcp] at h
        | some l' =>
          simp only [hp, hcp, Option.some.injEq] at h
          rw [← h]
          by_cases hda : d = a
          · subst hda
            simp [isAncestor]
          · have hmem : (a ∈ d :: l') = (a ∈ l') := by
              simp [List.mem_cons, Ne.symm hda]
            simp only [isAncestor, if_neg hda, hs, hp]
            rw [ih p l' hcp a]
            congr 1
            simp [hmem]

/-- Claim C5: on a finite, fully stored parent chain, `is_ancestor(a, d)`
returns true iff `a` occurs on the chain from `d` (inclusive of `d`),
returning false when the walk reaches a parentless commit without meeting
`a`; and `is_ancestor(x, x)` returns true for every commit, stored or not. -/
theorem isAncestor_correct (store : String → Option Commit) (n : Nat)
    (d : String) (l : List String) (h : chain store n d = some l) :
    (∀ a, isAncestor store n a d = some (decide (a ∈ l))) ∧
    (∀ (x : String) (k : Nat), isAncestor store k x x = some true) := by
  refine ⟨chain_isAncestor store n d l h, ?_⟩
  intro x k
  cases k <;> simp [isAncestor]

/-- Decomposition of a successful `find?`: the list splits at the found
element and everything before it fails the predicate. -/
theorem find?_decomp (p : String → Bool) :
    ∀ (l : List String) (a : String), l.find? p = some a →
      ∃ l₁ l₂, l = l₁ ++ a :: l₂ ∧ ∀ b ∈ l₁, p b = false := by
  intro l
  induction l with
  | nil => intro a h; simp at h
  | cons x xs ih =>
    intro a h
    by_cases hx : p x = true
    · rw [List.find?_cons_of_pos _ hx] at h
      obtain rfl : x = a := by simpa using h
      exact ⟨[], xs, rfl, by simp⟩
    · rw [List.find?_cons_of_neg _ (by simpa using hx)] at h
      obtain ⟨l₁, l₂, heq, hfail⟩ := ih a h
      refine ⟨x :: l₁, l₂, by rw [heq]; rfl, ?_⟩
      intro b hb
      rcases List.mem_cons.mp hb with rfl | hb'
      · simpa using hx
      · exact hfail b hb'

/-- The second loop of `find_common_ancestor` returns the first element of
the descendant's terminating chain that lies in the ancestor set. -/
theorem walkFind_eq (store : String → Option Commit) (anc1 : List String) :
    ∀ (m : Nat) (y : String) (cy : List String), chain store m y = some cy →
      walkFind store m anc1 y = some (cy.find? fun c => decide (c ∈ anc1)) := by
  intro m
  induction m with
  | zero => intro y cy h; simp [chain] at h
  | succ m ih =>
    intro y cy h
    obtain ⟨t, rfl⟩ := chain_head store (m + 1) y cy h
    simp only [chain] at h
    cases hs : store y with
    | none => simp [hs] at h
    | some c =>
      simp only [hs] at h
      by_cases hy : y ∈ anc1
      · rw [List.find?_cons_of_pos _ (by simpa using hy)]
        simp [walkFind, hy]
      · rw [List.find?_cons_of_neg _ (by simpa using hy)]
        simp only [walkFind, if_neg hy, hs]
        cases hp : c.parent with
        | none =>
          simp only [hp, Option.some.injEq, List.cons.injEq] at h
          rw [← h.2]
          rfl
        | some p =>
          cases hcp : chain store m p with
          | none => simp [hp, hcp] at h
          | some l' =>
            simp only [hp, hcp, Option.some.injEq, List.cons.injEq] at h
            rw [← h.2]
            exact ih p l' hcp

/-- Claim C4: on finite, fully stored single-parent ancestry chains,
`find_common_ancestor(x, y)` returns `None` exactly when the two chains
share no commit; when they share one, it returns a common commit `g` that is
deepest (every common commit is an ancestor of `g`); and when one of `x`,
`y` is an ancestor of the other, that commit itself is returned. -/
theorem findCommonAncestor_correct (store : String → Option Commit)
    (n m : Nat) (x y : String) (cx cy : List String)
    (hx : chain store n x = some cx) (hy : chain store m y = some cy) :
    ((∀ c, ¬(c ∈ cx ∧ c ∈ cy)) → findCommonAncestor store n m x y = some none) ∧
    (∀ c, c ∈ cx → c ∈ cy →
      ∃ g, findCommonAncestor store n m x y = some (some g) ∧ g ∈ cx ∧ g ∈ cy ∧
        ∀ d, d ∈ cx → d ∈ cy → IsAncestorOf store d g) ∧
    (y ∈ cx → findCommonAncestor store n m x y = some (some y)) ∧
    (x ∈ cy → findCommonAncestor store n m x y = some (some x)) := by
  have hfca : findCommonAncestor store n m x y =
      some (cy.find? fun c => decide (c ∈ cx)) := by
    unfold findCommonAncestor
    rw [hx]
    exact walkFind_eq store cx m y cy hy
  have hmain : ∀ g, (cy.find? fun c => decide (c ∈ cx)) = some g →
      g ∈ cx ∧ g ∈ cy ∧ ∀ d, d ∈ cx → d ∈ cy → IsAncestorOf store d g := by
    intro g hg
    have hgcx : g ∈ cx := by
      have := List.find?_some hg
      simpa using this
    have hgcy : g ∈ cy := List.mem_of_find?_eq_some hg
    refine ⟨hgcx, hgcy, ?_⟩
    intro d hdx hdy
    obtain ⟨l₁, l₂, hcyeq, hfail⟩ := find?_decomp (fun c => decide (c ∈ cx)) cy g hg
    obtain ⟨k, hk⟩ := chain_append store m y cy hy l₁ g l₂ hcyeq
    rw [hcyeq] at hdy
    rcases List.mem_append.mp hdy with hd1 | hd2
    · have := hfail d hd1
      simp only [decide_eq_false_iff_not] at this
      exact absurd hdx this
    · exact ⟨k, g :: l₂, hk, hd2⟩
  refine ⟨?_, ?_, ?_, ?_⟩
  · intro hnone
    rw [hfca]
    have hfind : (cy.find? fun c => decide (c ∈ cx)) = none := by
      rw [List.find?_eq_none]
      intro a ha
      simp only [decide_eq_true_eq]
      intro hacx
      exact hnone a ⟨hacx, ha⟩
    rw [hfind]
  · intro c hcx hcy2
    cases hfind : (cy.find? fun c => decide (c ∈ cx)) with
    | none =>
      have := List.find?_eq_none.mp hfind c hcy2
      simp [hcx] at this
    | some g =>
      obtain ⟨h1, h2, h3⟩ := hmain g hfind
      exact ⟨g, by rw [hfca, hfind], h1, h2, h3⟩
  · intro hycx
    rw [hfca]
    obtain ⟨t, rfl⟩ := chain_head store m y cy hy
    rw [List.find?_cons_of_pos _ (by simpa using hycx)]
  · intro hxcy
    obtain ⟨tx, hcxeq⟩ := chain_head store n x cx hx
    have hxcx : x ∈ cx := by rw [hcxeq]; exact List.mem_cons_self x tx
    cases hfind : (cy.find? fun c => decide (c ∈ cx)) with
    | none =>
      have := List.find?_eq_none.mp hfind x hxcy
      simp [hxcx] at this
    | some g =>
      obtain ⟨hgcx, _, hdeep⟩ := hmain g hfind
      obtain ⟨k, lg, hklg, hxlg⟩ := hdeep x hxcx hxcy
      obtain ⟨a₁, a₂, hcxsplit⟩ := List.append_of_mem hgcx
      obtain ⟨k', hk'⟩ := chain_append store n x cx hx a₁ g a₂ hcxsplit
      have hlg : lg = g :: a₂ := chain_det store k k' g lg (g :: a₂) hklg hk'
      rw [hlg] at hxlg
      have hnodup : cx.Nodup := chain_nodup store n x cx hx
      rw [hcxeq] at hnodup
      have hxtx : x ∉ tx := (List.nodup_cons.mp hnodup).1
      have hgx : g = x := by
        rcases List.mem_cons.mp hxlg with hxg | hxa₂
        · exact hxg.symm
        · cases a₁ with
          | nil =>
            rw [hcxeq] at hcxsplit
            simp only [List.nil_append, List.cons.injEq] at hcxsplit
            exact hcxsplit.1.symm
          | cons b a₁' =>
            rw [hcxeq] at hcxsplit
            simp only [List.cons_append, List.cons.injEq] at hcxsplit
            exfalso
            apply hxtx
            rw [hcxsplit.2]
            exact List.mem_append.mpr (Or.inr (List.mem_cons.mpr (Or.inr hxa₂)))
      rw [hfca, hfind, hgx]

/-- Witness for C5 on the concrete store: the chain of `a` is `[a, r]` and
the `is_ancestor` walk agrees with membership in it. -/
theorem isAncestor_correct_witness :
    isAncestor wStore 2 ("r") ("a") = some true ∧
    isAncestor wStore 2 ("b") ("a") = some false := by
  have h := (isAncestor_correct wStore 2 ("a") ["a", "r"] (by rfl)).1
  have h1 := h ("r")
  have h2 := h ("b")
  rw [show decide (("r" : String) ∈ (["a", "r"] : List String)) = true by decide] at h1
  rw [show decide (("b" : String) ∈ (["a", "r"] : List String)) = false by decide] at h2
  exact ⟨h1, h2⟩

/-- Witness for C4 on the concrete store: the root is the common ancestor of
the two branch tips, and the ancestor case returns the ancestor itself. -/
theorem findCommonAncestor_correct_witness :
    findCommonAncestor wStore 2 1 ("a") ("r") = some (some ("r")) :=
  (findCommonAncestor_correct wStore 2 1 ("a") ("r") ["a", "r"] ["r"]
    (by rfl) (by rfl)).2.2.1 (by decide)

/-- Claim C1 (corrected): ordinary commits (spec-modelled) and stash commits
hash exactly `tree || parent-or-empty || author || message`, with the
timestamp excluded from the hashed bytes; merge commits hash
`tree || parent || merged-tip || author || message`, i.e. the second merged
tip is part of the hashed bytes (timestamp still excluded). -/
theorem commit_hash_formulas (hashContent : String → String)
    (t a msg pc other : String) (p : Option String) (n₁ n₂ : Nat) :
    (mkOrdinaryCommit hashContent t p a msg n₁).hash =
      hashContent (claimedCommitContent t p a msg) ∧
    (mkStashCommit hashContent t p msg n₁).hash =
      hashContent (claimedCommitContent t p stashAuthor msg) ∧
    (mkMergeCommit hashContent t pc other a msg n₁).hash =
      hashContent (t ++ pc ++ other ++ a ++ msg) ∧
    (mkOrdinaryCommit hashContent t p a msg n₁).hash =
      (mkOrdinaryCommit hashContent t p a msg n₂).hash ∧
    (mkStashCommit hashContent t p msg n₁).hash =
      (mkStashCommit hashContent t p msg n₂).hash ∧
    (mkMergeCommit hashContent t pc other a msg n₁).hash =
      (mkMergeCommit hashContent t pc other a msg n₂).hash :=
  ⟨rfl, rfl, rfl, rfl, rfl, rfl⟩

/-- Counterexample to C1 as stated: for the merge commit built from tree
`"T"`, parent `"P"`, merged tip `"O"`, author `"A"`, message `"M"`, the
hashed bytes are `"TPOAM"`, not the claimed `tree || parent || author ||
message` = `"TPAM"`; instantiating the hasher with the injective `id` shows
the stored hash differs from the claimed content hash. -/
theorem mergeCommit_hash_not_claimed_formula :
    mergeCommitContent ("T") ("P") ("O") ("A") ("M") ≠
      claimedCommitContent ("T") (some ("P")) ("A") ("M") ∧
    (mkMergeCommit id ("T") ("P") ("O") ("A") ("M") 0).hash ≠
      id (claimedCommitContent ("T") (some ("P")) ("A") ("M")) := by
  constructor <;> decide

/-- Claim C2 (the code violates it): two entry lists that are permutations
of each other — hence logically equal maps, with identical `lookup` on every
path — serialize to different bytes.  Since the serializer consumes the
`HashMap` iteration order, which Rust randomizes per process, building the
same logical tree twice can yield different bytes and therefore different
tree hashes, contradicting the spec's required byte-stable canonical
encoding. -/
theorem serializeTreeEntries_order_dependent :
    ([(("a" : String), wEntry1), ("b", wEntry2)]).Perm
      [("b", wEntry2), ("a", wEntry1)] ∧
    (∀ k : String, List.lookup k [(("a" : String), wEntry1), ("b", wEntry2)] =
      List.lookup k [("b", wEntry2), ("a", wEntry1)]) ∧
    serializeTreeEntries [(("a" : String), wEntry1), ("b", wEntry2)] ≠
      serializeTreeEntries [("b", wEntry2), ("a", wEntry1)] := by
  refine ⟨List.Perm.swap ("b", wEntry2) ("a", wEntry1) [], ?_, by decide⟩
  intro k
  by_cases h1 : k = "a"
  · subst h1; rfl
  · by_cases h2 : k = "b"
    · subst h2; rfl
    · have hb1 : (k == "a") = false := by simp [h1]
      have hb2 : (k == "b") = false := by simp [h2]
      simp [List.lookup, hb1, hb2]

/-- Claim C3: for a path present in base, ours and theirs whose two sides
both differ from the base hash and from each other, the merged tree maps
the path to the our-side entry, the conflict notice for the path is
emitted, and the merge loop completes with the merged tree (the conflict
arm of the Rust match inserts and continues; it has no error return). -/
theorem threeWayMerge_conflict_keeps_ours (paths : List String)
    (base ours theirs : String → Option TreeEntry) (p : String)
    (be oe te : TreeEntry) (hp : p ∈ paths)
    (hb : base p = some be) (ho : ours p = some oe) (ht : theirs p = some te)
    (h1 : oe.hash ≠ be.hash) (h2 : te.hash ≠ be.hash) (h3 : oe.hash ≠ te.hash) :
    (performThreeWayMerge paths base ours theirs).1.lookup p = some oe ∧
    conflictMessage p ∈ (performThreeWayMerge paths base ours theirs).2 := by
  have hmp : mergePath (base p) (ours p) (theirs p) = (some oe, true) := by
    rw [hb, ho, ht]
    simp only [mergePath]
    rw [if_neg (by intro hc; exact h1 hc.1), if_neg h2, if_neg h1, if_pos h3]
  induction paths with
  | nil => cases hp
  | cons q rest ih =>
    by_cases hq : q = p
    · subst hq
      simp only [performThreeWayMerge, hmp]
      constructor
      · simp [List.lookup]
      · exact List.mem_cons_self _ _
    · have hp' : p ∈ rest := by
        rcases List.mem_cons.mp hp with rfl | hmem
        · exact absurd rfl hq
        · exact hmem
      obtain ⟨ih1, ih2⟩ := ih hp'
      have hpq : (p == q) = false := by
        simp [Ne.symm hq]
      simp only [performThreeWayMerge]
      cases hm : mergePath (base q) (ours q) (theirs q) with
      | mk eo fl =>
        cases eo with
        | none => exact ⟨ih1, ih2⟩
        | some e =>
          cases fl with
          | true =>
            refine ⟨?_, List.mem_cons_of_mem _ ih2⟩
            simp [List.lookup, hpq, ih1]
          | false =>
            refine ⟨?_, ih2⟩
            simp [List.lookup, hpq, ih1]

/-- Witness for C3 on the concrete conflicting trees. -/
theorem threeWayMerge_conflict_keeps_ours_witness :
    (performThreeWayMerge ["x"] wBaseTree wOurTree wTheirTree).1.lookup ("x") =
      some wConflictOurs ∧
    conflictMessage ("x") ∈
      (performThreeWayMerge ["x"] wBaseTree wOurTree wTheirTree).2 :=
  threeWayMerge_conflict_keeps_ours ["x"] wBaseTree wOurTree wTheirTree ("x")
    wConflictBase wConflictOurs wConflictTheirs (by decide)
    (by rfl) (by rfl) (by rfl) (by decide) (by decide) (by decide)

theorem assocLookup_append_single {α β : Type} [DecidableEq α]
    (l : List (α × β)) (k : α) (v : β) (p : α) :
    assocLookup p (l ++ [(k, v)]) =
      match assocLookup p l with
      | some b => some b
      | none => if p = k then some v else none := by
  induction l with
  | nil => simp [assocLookup]
  | cons kv rest ih =>
    obtain ⟨k', v'⟩ := kv
    by_cases hp : p = k' <;> simp [assocLookup, hp, ih]

/-- The inner copy loop never changes an existing destination file. -/
theorem copyDirObjects_preserves (d : String) :
    ∀ (files : List (String × String)) (dst : List ((String × String) × String))
      (c : Nat) (p : String × String) (b : String),
      assocLookup p dst = some b →
      assocLookup p (copyDirObjects d files dst c).1 = some b := by
  intro files
  induction files with
  | nil => intro dst c p b h; exact h
  | cons fb rest ih =>
    intro dst c p b h
    obtain ⟨f, bytes⟩ := fb
    simp only [copyDirObjects]
    cases hl : assocLookup (d, f) dst with
    | some b0 => exact ih dst c p b h
    | none =>
      apply ih
      rw [assocLookup_append_single]
      rw [h]

/-- Every file present after the inner copy loop was either already present
or is one of the source files, copied byte-for-byte. -/
theorem copyDirObjects_new_from_src (d : String) :
    ∀ (files : List (String × String)) (dst : List ((String × String) × String))
      (c : Nat) (p : String × String) (b : String),
      assocLookup p (copyDirObjects d files dst c).1 = some b →
      assocLookup p dst = some b ∨
        (assocLookup p dst = none ∧ p.1 = d ∧ (p.2, b) ∈ files) := by
  intro files
  induction files with
  | nil => intro dst c p b h; exact Or.inl h
  | cons fb rest ih =>
    intro dst c p b h
    obtain ⟨f, bytes⟩ := fb
    simp only [copyDirObjects] at h
    cases hl : assocLookup (d, f) dst with
    | some b0 =>
      rw [hl] at h
      rcases ih dst c p b h with h1 | ⟨h1, h2, h3⟩
      · exact Or.inl h1
      · exact Or.inr ⟨h1, h2, List.mem_cons_of_mem _ h3⟩
    | none =>
      rw [hl] at h
      rcases ih _ _ p b h with h1 | ⟨h1, h2, h3⟩
      · rw [assocLookup_append_single] at h1
        cases hpd : assocLookup p dst with
        | some b1 => rw [hpd] at h1; exact Or.inl h1
        | none =>
          rw [hpd] at h1
          by_cases hpk : p = (d, f)
          · rw [if_pos hpk] at h1
            refine Or.inr ⟨rfl, ?_, ?_⟩
            · rw [hpk]
            · have hb : b = bytes := by
                have := h1
                simp at this
                exact this.symm
              rw [hpk, hb]
              exact List.mem_cons_self _ _
          · rw [if_neg hpk] at h1
            cases h1
      · rw [assocLookup_append_single] at h1
        cases hpd : assocLookup p dst with
        | some b1 => rw [hpd] at h1; cases h1
        | none => exact Or.inr ⟨rfl, h2, List.mem_cons_of_mem _ h3⟩

/-- After the inner copy loop, every source file of the directory is
present at the destination. -/
theorem copyDirObjects_covers (d : String) :
    ∀ (files : List (String × String)) (dst : List ((String × String) × String))
      (c : Nat) (f bytes : String), (f, bytes) ∈ files →
      ∃ b, assocLookup (d, f) (copyDirObjects d files dst c).1 = some b := by
  intro files
  induction files with
  | nil => intro dst c f bytes h; cases h
  | cons fb rest ih =>
    intro dst c f bytes h
    obtain ⟨f0, bytes0⟩ := fb
    simp only [copyDirObjects]
    rcases List.mem_cons.mp h with heq | hmem
    · injection heq with hf hb
      subst hf
      subst hb
      cases hl : assocLookup (d, f) dst with
      | some b0 => exact ⟨b0, copyDirObjects_preserves d rest dst c (d, f) b0 hl⟩
      | none =>
        have hnew : assocLookup (d, f) (dst ++ [((d, f), bytes)]) = some bytes := by
          rw [assocLookup_append_single, hl, if_pos rfl]
        exact ⟨bytes, copyDirObjects_preserves d rest _ _ (d, f) bytes hnew⟩
    · cases hl : assocLookup (d, f0) dst with
      | some b0 => exact ih dst c f bytes hmem
      | none => exact ih _ _ f bytes hmem

/-- When every source file of the directory already exists at the
destination, the inner copy loop copies nothing. -/
theorem copyDirObjects_noop (d : String) :
    ∀ (files : List (String × String)) (dst : List ((String × String) × String))
      (c : Nat),
      (∀ f bytes, (f, bytes) ∈ files → ∃ b, assocLookup (d, f) dst = some b) →
      copyDirObjects d files dst c = (dst, c) := by
  intro files
  induction files with
  | nil => intro dst c _; rfl
  | cons fb rest ih =>
    intro dst c hall
    obtain ⟨f, bytes⟩ := fb
    obtain ⟨b, hb⟩ := hall f bytes (List.mem_cons_self _ _)
    simp only [copyDirObjects, hb]
    exact ih dst c fun f' bytes' hm => hall f' bytes' (List.mem_cons_of_mem _ hm)

/-- The outer copy loop never changes an existing destination file. -/
theorem copyMissingObjectsAux_preserves :
    ∀ (src : List (String × List (String × String)))
      (dst : List ((String × String) × String)) (c : Nat)
      (p : String × String) (b : String),
      assocLookup p dst = some b →
      assocLookup p (copyMissingObjectsAux src dst c).1 = some b := by
  intro src
  induction src with
  | nil => intro dst c p b h; exact h
  | cons dfiles rest ih =>
    intro dst c p b h
    obtain ⟨d, files⟩ := dfiles
    simp only [copyMissingObjectsAux]
    exact ih _ _ p b (copyDirObjects_preserves d files dst c p b h)

/-- Every file present after the outer copy loop was already present or
comes from the source, byte-for-byte. -/
theorem copyMissingObjectsAux_new_from_src :
    ∀ (src : List (String × List (String × String)))
      (dst : List ((String × String) × String)) (c : Nat)
      (p : String × String) (b : String),
      assocLookup p (copyMissingObjectsAux src dst c).1 = some b →
      assocLookup p dst = some b ∨
        (assocLookup p dst = none ∧
          ∃ files, (p.1, files) ∈ src ∧ (p.2, b) ∈ files) := by
  intro src
  induction src with
  | nil => intro dst c p b h; exact Or.inl h
  | cons dfiles rest ih =>
    intro dst c p b h
    obtain ⟨d, files⟩ := dfiles
    simp only [copyMissingObjectsAux] at h
    rcases ih _ _ p b h with h1 | ⟨h1, files', h2, h3⟩
    · rcases copyDirObjects_new_from_src d files dst c p b h1 with g1 | ⟨g1, g2, g3⟩
      · exact Or.inl g1
      · refine Or.inr ⟨g1, files, ?_, g3⟩
        rw [g2]
        exact List.mem_cons_self _ _
    · cases hpd : assocLookup p dst with
      | some b1 =>
        have := copyDirObjects_preserves d files dst c p b1 hpd
        rw [this] at h1
        cases h1
      | none =>
        exact Or.inr ⟨rfl, files', List.mem_cons_of_mem _ h2, h3⟩

/-- After the outer copy loop, every source file is present at the
destination. -/
theorem copyMissingObjectsAux_covers :
    ∀ (src : List (String × List (String × String)))
      (dst : List ((String × String) × String)) (c : Nat)
      (d : String) (files : List (String × String)) (f bytes : String),
      (d, files) ∈ src → (f, bytes) ∈ files →
      ∃ b, assocLookup (d, f) (copyMissingObjectsAux src dst c).1 = some b := by
  intro src
  induction src with
  | nil => intro dst c d files f bytes h _; cases h
  | cons dfiles rest ih =>
    intro dst c d files f bytes hd hf
    obtain ⟨d0, files0⟩ := dfiles
    simp only [copyMissingObjectsAux]
    rcases List.mem_cons.mp hd with heq | hmem
    · injection heq with h1 h2
      subst h1
      subst h2
      obtain ⟨b, hb⟩ := copyDirObjects_covers d files dst c f bytes hf
      exact ⟨b, copyMissingObjectsAux_preserves rest _ _ (d, f) b hb⟩
    · exact ih _ _ d files f bytes hmem hf

/-- When every source file already exists at the destination, the outer
copy loop copies nothing and leaves the destination untouched. -/
theorem copyMissingObjectsAux_noop :
    ∀ (src : List (String × List (String × String)))
      (dst : List ((String × String) × String)) (c : Nat),
      (∀ d files f bytes, (d, files) ∈ src → (f, bytes) ∈ files →
        ∃ b, assocLookup (d, f) dst = some b) →
      copyMissingObjectsAux src dst c = (dst, c) := by
  intro src
  induction src with
  | nil => intro dst c _; rfl
  | cons dfiles rest ih =>
    intro dst c hall
    obtain ⟨d, files⟩ := dfiles
    simp only [copyMissingObjectsAux]
    rw [copyDirObjects_noop d files dst c
      (fun f bytes hm => hall d files f bytes (List.mem_cons_self _ _) hm)]
    exact ih dst c fun d' files' f' bytes' hd' hf' =>
      hall d' files' f' bytes' (List.mem_cons_of_mem _ hd') hf'

/-- Claim C8: the object copy of push and fetch never writes a destination
object file that already exists (its bytes are unchanged), only creates
files that were absent — with bytes taken from the source — and a second
run of the same copy copies zero files and changes nothing. -/
theorem copyMissingObjects_correct
    (src : List (String × List (String × String)))
    (dst : List ((String × String) × String)) :
    (∀ p b, assocLookup p dst = some b →
      assocLookup p (copyMissingObjects src dst).1 = some b) ∧
    (∀ p b, assocLookup p (copyMissingObjects src dst).1 = some b →
      assocLookup p dst = some b ∨
        (assocLookup p dst = none ∧
          ∃ files, (p.1, files) ∈ src ∧ (p.2, b) ∈ files)) ∧
    copyMissingObjects src (copyMissingObjects src dst).1 =
      ((copyMissingObjects src dst).1, 0) := by
  refine ⟨?_, ?_, ?_⟩
  · intro p b h
    exact copyMissingObjectsAux_preserves src dst 0 p b h
  · intro p b h
    exact copyMissingObjectsAux_new_from_src src dst 0 p b h
  · exact copyMissingObjectsAux_noop src _ 0
      (fun d files f bytes hd hf =>
        copyMissingObjectsAux_covers src dst 0 d files f bytes hd hf)

/-- Witness for C8 on a concrete store: a pre-existing destination object
keeps its bytes through the copy. -/
theorem copyMissingObjects_correct_witness :
    assocLookup (("ab", "ee"))
      (copyMissingObjects [("ab", [("cd", "b1")])] [((("ab", "ee")), "old")]).1 =
      some ("old") :=
  (copyMissingObjects_correct [("ab", [("cd", "b1")])]
    [((("ab", "ee")), "old")]).1 (("ab", "ee")) ("old") (by rfl)

/-- Claim C9: for every stash index at or beyond the number of stored
entries, `stash pop`, `stash show` and `stash drop` fail with the
`"Invalid stash index"` error and return the repository state unchanged —
the bound check precedes any write. -/
theorem stashOps_invalid_index (st : RepoState) (n : Nat)
    (h : st.stashes.length ≤ n) :
    stashPop st (some n) = (st, some ("Invalid stash index")) ∧
    stashShow st (some n) = (st, some ("Invalid stash index")) ∧
    stashDrop st (some n) = (st, some ("Invalid stash index")) := by
  refine ⟨?_, ?_, ?_⟩
  · unfold stashPop
    rw [dif_pos (by simpa using h)]
  · unfold stashShow
    rw [dif_pos (by simpa using h)]
  · unfold stashDrop
    rw [if_pos (by simpa using h)]

/-- Witness for C9 on the concrete state: index 0 with an empty stash list
errors and mutates nothing. -/
theorem stashOps_invalid_index_witness :
    stashPop wRepoState (some 0) = (wRepoState, some ("Invalid stash index")) ∧
    stashDrop wRepoState (some 0) = (wRepoState, some ("Invalid stash index")) :=
  ⟨(stashOps_invalid_index wRepoState 0 (by decide)).1,
    (stashOps_invalid_index wRepoState 0 (by decide)).2.2⟩

/-- Claim C10: with an empty index (hence no indexed file modified or
missing), `stash push` returns success without creating a stash entry,
without clearing the working directory and without rewriting the index —
the early return fires even when untracked files are present, because
`has_unstaged_changes` inspects only indexed entries. -/
theorem stashPush_noChanges_noop (hashContent : String → String)
    (st : RepoState) (message : Option String) (h : st.indexEntries = []) :
    stashPush hashContent st message = (st, none) := by
  unfold stashPush
  have hunstaged : hasUnstagedChanges hashContent st = false := by
    unfold hasUnstagedChanges
    rw [h]
    rfl
  rw [if_pos ⟨h, hunstaged⟩]

/-- Witness for C10 on the concrete state: an untracked file is present,
yet `stash push` is a no-op returning success. -/
theorem stashPush_noChanges_noop_witness :
    stashPush id wRepoState none = (wRepoState, none) :=
  stashPush_noChanges_noop id wRepoState none (by rfl)

end MiniGit
